import Mathlib

/-!
Shallow embedding of the `resizing_vec` Rust crate (file `src/lib.rs`).

The Rust type `ResizingVec<T>` owns a `Vec<Option<T>>` called `data` and a
counter `active` of occupied slots.  We embed `Vec<Option<T>>` as
`List (Option T)` and `usize` as `Nat`.  Mutating methods are embedded as
pure functions returning the produced value together with the new state.
-/

/-- Result record of `resize`: where an occupied element moved. -/
structure Position where
  prev_idx : Nat
  new_idx : Nat
deriving DecidableEq, Repr

/-- `Position::changed`: true iff the element moved. -/
def Position.changed (p : Position) : Bool :=
  p.prev_idx != p.new_idx

/-- The store: backing slots plus the count of occupied slots. -/
structure ResizingVec (T : Type) where
  data : List (Option T)
  active : Nat
deriving DecidableEq, Repr

namespace ResizingVec

variable {T : Type}

/-- `Default::default` / `ResizingVec::new`: zero slots, zero active. -/
def new : ResizingVec T :=
  { data := [], active := 0 }

/-- `ResizingVec::prefill(capacity)`: `capacity` empty slots. -/
def prefill (capacity : Nat) : ResizingVec T :=
  { data := List.replicate capacity none, active := 0 }

/-- `From<Vec<T>>::from`: every element wrapped in `Some`, `active = len`.
(`from` is a Lean keyword, hence the name `fromVec`.) -/
def fromVec (value : List T) : ResizingVec T :=
  { data := value.map some, active := (value.map some).length }

/-- `ResizingVec::reserved_space`: length of the backing vector. -/
def reserved_space (rv : ResizingVec T) : Nat :=
  rv.data.length

/-- `ResizingVec::filled`: the `active` counter. -/
def filled (rv : ResizingVec T) : Nat :=
  rv.active

/-- `ResizingVec::get`: `self.data.get(idx)` then `inner.as_ref()`;
out of range and empty slot both give `none`. -/
def get (rv : ResizingVec T) (idx : Nat) : Option T :=
  match rv.data.get? idx with
  | some inner => inner
  | none => none

/-- `ResizingVec::get_mut`: same lookup as `get` (the embedding returns the
value a mutable reference would point to). -/
def get_mut (rv : ResizingVec T) (idx : Nat) : Option T :=
  match rv.data.get? idx with
  | some inner => inner
  | none => none

/-- `ResizingVec::iter`: `enumerate` then `filter_map`, keeping
`(idx, e)` for the occupied slots only. -/
def iter (rv : ResizingVec T) : List (Nat × T) :=
  rv.data.enum.filterMap (fun p => p.2.map (fun e => (p.1, e)))

/-- `ResizingVec::remove`: in range, `take()` the slot (returns the old
value, leaves `None`) and decrement `active` if it was occupied;
out of range, return `None` and change nothing. -/
def remove (rv : ResizingVec T) (idx : Nat) : Option T × ResizingVec T :=
  if rv.data.length > idx then
    let prev := rv.data.getD idx none
    let bumped := if prev.isSome then rv.active - 1 else rv.active
    (prev, { data := rv.data.set idx none, active := bumped })
  else
    (none, rv)

/-- The `while self.data.len() <= idx { self.data.push(None) }` loop of
`ResizingVec::insert`. -/
def growTo (d : List (Option T)) (idx : Nat) : List (Option T) :=
  if d.length ≤ idx then growTo (d ++ [none]) idx else d
termination_by idx + 1 - d.length
decreasing_by simp only [List.length_append, List.length_cons, List.length_nil]; omega

/-- `ResizingVec::insert`: grow until `idx` is in range, then
`mem::replace` the slot with `Some(t)`; bump `active` iff the previous
occupant was `None`.  Returns the previous occupant and the new state. -/
def insert (rv : ResizingVec T) (idx : Nat) (t : T) : Option T × ResizingVec T :=
  let grown := growTo rv.data idx
  let prev := grown.getD idx none
  let bumped := if prev.isNone then rv.active + 1 else rv.active
  (prev, { data := grown.set idx (some t), active := bumped })

/-- `ResizingVec::clear`: reset to the default state. -/
def clear (_rv : ResizingVec T) : ResizingVec T :=
  { data := [], active := 0 }

/-- The `for (idx, elem) in prev.into_iter().enumerate()` loop of
`ResizingVec::resize`: push occupied slots onto the new `data` and record
`Position { prev_idx: idx, new_idx: self.data.len() - 1 }`. -/
def resizeGo (l : List (Option T)) (idx : Nat) (acc : List (Option T))
    (ps : List Position) : List (Option T) × List Position :=
  match l with
  | [] => (acc, ps)
  | elem :: rest =>
    if elem.isSome then
      resizeGo rest (idx + 1) (acc ++ [elem])
        (ps ++ [{ prev_idx := idx, new_idx := (acc ++ [elem]).length - 1 }])
    else
      resizeGo rest (idx + 1) acc ps

/-- `ResizingVec::resize`: replace `data` by the packed occupied slots,
set `active` to the new length, return the `Position` list. -/
def resize (rv : ResizingVec T) : List Position × ResizingVec T :=
  let r := resizeGo rv.data 0 [] []
  (r.2, { data := r.1, active := r.1.length })

/-- Model of the `Index`/`IndexMut` impls: `self.data[index]` on a Rust
`Vec` panics when the index is out of range; the panic is modelled by the
outer `none`, and an in-range access returns the raw slot. -/
def indexOp (rv : ResizingVec T) (idx : Nat) : Option (Option T) :=
  rv.data.get? idx

/-- The intended representation invariant: `active` counts the occupied
slots of `data`. -/
def Wf (rv : ResizingVec T) : Prop :=
  rv.active = rv.data.countP Option.isSome

instance (rv : ResizingVec T) : Decidable (Wf rv) := by
  unfold Wf; infer_instance

end ResizingVec

/-- A concrete store used to witness theorems about compaction. -/
def sampleA : ResizingVec Nat :=
  { data := [none, some 5, none, some 7], active := 2 }

/-- A concrete store used to witness theorems about removal. -/
def sampleB : ResizingVec Nat :=
  { data := [some 3, none], active := 1 }

namespace ResizingVec

variable {T : Type}

theorem growTo_eq (d : List (Option T)) (idx : Nat) :
    growTo d idx = d ++ List.replicate (idx + 1 - d.length) none := by
  generalize hn : idx + 1 - d.length = n
  induction n generalizing d with
  | zero =>
    rw [growTo]
    have h : ¬ d.length ≤ idx := by omega
    simp [h]
  | succ n ih =>
    have h : d.length ≤ idx := by omega
    rw [growTo, if_pos h, ih (d ++ [none]) (by simp; omega)]
    simp [List.replicate_succ]

theorem growTo_length (d : List (Option T)) (idx : Nat) :
    (growTo d idx).length = d.length + (idx + 1 - d.length) := by
  rw [growTo_eq]; simp

theorem lt_growTo_length (d : List (Option T)) (idx : Nat) :
    idx < (growTo d idx).length := by
  rw [growTo_length]; omega

theorem growTo_getD (d : List (Option T)) (k j : Nat) :
    (growTo d k).getD j none = d.getD j none := by
  rw [growTo_eq, List.getD_eq_get?, List.getD_eq_get?]
  by_cases h : j < d.length
  · rw [List.get?_append h]
  · rw [List.get?_append_right (by omega)]
    rw [List.get?_eq_getElem?, List.get?_eq_getElem?, List.getElem?_replicate]
    rw [List.getElem?_eq_none (by omega)]
    split <;> rfl

theorem get_eq_getD (rv : ResizingVec T) (idx : Nat) :
    rv.get idx = rv.data.getD idx none := by
  unfold get
  rw [List.getD_eq_get?]
  cases rv.data.get? idx <;> rfl

theorem get_mut_eq_get (rv : ResizingVec T) (idx : Nat) :
    rv.get_mut idx = rv.get idx := rfl

theorem countP_set_isSome (l : List (Option T)) (i : Nat) (a : Option T)
    (h : i < l.length) :
    (l.set i a).countP Option.isSome + (if (l.getD i none).isSome then 1 else 0)
      = l.countP Option.isSome + (if a.isSome then 1 else 0) := by
  induction l generalizing i with
  | nil => simp at h
  | cons x xs ih =>
    cases i with
    | zero =>
      simp only [List.set_cons_zero, List.getD_cons_zero, List.countP_cons]
      cases a <;> cases x <;> simp [Option.isSome]
    | succ i =>
      simp only [List.set_cons_succ, List.getD_cons_succ, List.countP_cons]
      have := ih i (by simpa using Nat.lt_of_succ_lt_succ h)
      omega

theorem countP_replicate_none (n : Nat) :
    (List.replicate n (none : Option T)).countP Option.isSome = 0 := by
  induction n with
  | zero => rfl
  | succ n ih => simp [List.replicate_succ, List.countP_cons, ih]

theorem set_none_of_getD_none (l : List (Option T)) (i : Nat)
    (h : l.getD i none = none) :
    l.set i none = l := by
  induction l generalizing i with
  | nil => rfl
  | cons x xs ih =>
    cases i with
    | zero => simp only [List.getD_cons_zero] at h; simp [h]
    | succ i =>
      simp only [List.getD_cons_succ] at h
      simp [ih i h]

theorem resizeGo_fst (l : List (Option T)) (idx : Nat) (acc : List (Option T))
    (ps : List Position) :
    (resizeGo l idx acc ps).1 = acc ++ l.filter Option.isSome := by
  induction l generalizing idx acc ps with
  | nil => simp [resizeGo]
  | cons x xs ih =>
    cases hx : x.isSome
    · rw [resizeGo, if_neg (by simp [hx]), ih,
        List.filter_cons_of_neg (by simp [hx])]
    · rw [resizeGo, if_pos hx, ih, List.filter_cons_of_pos hx]
      simp

theorem resizeGo_new_idx (l : List (Option T)) (idx : Nat) (acc : List (Option T))
    (ps : List Position) :
    (resizeGo l idx acc ps).2.map Position.new_idx
      = ps.map Position.new_idx
        ++ List.range' acc.length (l.countP Option.isSome) := by
  induction l generalizing idx acc ps with
  | nil => simp [resizeGo]
  | cons x xs ih =>
    cases hx : x.isSome
    · rw [resizeGo, if_neg (by simp [hx]), ih]
      simp [List.countP_cons, hx]
    · rw [resizeGo, if_pos hx, ih]
      simp [List.countP_cons, hx, List.range'_succ]

theorem resizeGo_new_idx_le (l : List (Option T)) (idx : Nat)
    (acc : List (Option T)) (ps : List Position) (hacc : acc.length ≤ idx)
    (hps : ∀ p ∈ ps, p.new_idx ≤ p.prev_idx) :
    ∀ p ∈ (resizeGo l idx acc ps).2, p.new_idx ≤ p.prev_idx := by
  induction l generalizing idx acc ps with
  | nil => simpa [resizeGo] using hps
  | cons x xs ih =>
    cases hx : x.isSome
    · rw [resizeGo, if_neg (by simp [hx])]
      exact ih _ _ _ (by omega) hps
    · rw [resizeGo, if_pos hx]
      refine ih _ _ _ (by simp; omega) ?_
      intro p hp
      rcases List.mem_append.mp hp with h | h
      · exact hps p h
      · simp only [List.mem_singleton] at h
        subst h
        simp
        omega

theorem filterMap_id_filter_isSome (l : List (Option T)) :
    (l.filter Option.isSome).filterMap id = l.filterMap id := by
  induction l with
  | nil => rfl
  | cons x xs ih => cases x <;> simp [List.filter_cons, ih]

theorem enumFrom_filterMap_snd (l : List (Option T)) (n : Nat) :
    ((l.enumFrom n).filterMap
        (fun p => p.2.map (fun e => (p.1, e)))).map Prod.snd
      = l.filterMap id := by
  induction l generalizing n with
  | nil => rfl
  | cons x xs ih => cases x <;> simp [List.filterMap_cons, ih]

theorem iter_values (rv : ResizingVec T) :
    rv.iter.map Prod.snd = rv.data.filterMap id := by
  unfold iter
  rw [List.enum]
  exact enumFrom_filterMap_snd rv.data 0

theorem filterMap_pairs_fst_sublist (l : List (Nat × Option T)) :
    ((l.filterMap (fun p => p.2.map (fun e => (p.1, e)))).map Prod.fst).Sublist
      (l.map Prod.fst) := by
  induction l with
  | nil => simp
  | cons p rest ih =>
    obtain ⟨j, o⟩ := p
    cases o with
    | none =>
      simp only [List.filterMap_cons, Option.map_none, List.map_cons]
      exact ih.cons j
    | some e =>
      simp only [List.filterMap_cons, Option.map_some, List.map_cons]
      exact ih.cons₂ j

theorem insert_eq (rv : ResizingVec T) (idx : Nat) (t : T) :
    rv.insert idx t
      = ((growTo rv.data idx).getD idx none,
         { data := (growTo rv.data idx).set idx (some t),
           active := if ((growTo rv.data idx).getD idx none).isNone
             then rv.active + 1 else rv.active }) := rfl

theorem remove_eq_lt (rv : ResizingVec T) (idx : Nat) (h : idx < rv.data.length) :
    rv.remove idx
      = (rv.data.getD idx none,
         { data := rv.data.set idx none,
           active := if (rv.data.getD idx none).isSome
             then rv.active - 1 else rv.active }) := by
  unfold remove
  rw [if_pos h]

theorem remove_eq_ge (rv : ResizingVec T) (idx : Nat) (h : rv.data.length ≤ idx) :
    rv.remove idx = (none, rv) := by
  unfold remove
  rw [if_neg (by omega)]

theorem resize_eq (rv : ResizingVec T) :
    rv.resize
      = ((resizeGo rv.data 0 [] []).2,
         { data := (resizeGo rv.data 0 [] []).1,
           active := (resizeGo rv.data 0 [] []).1.length }) := rfl

theorem resize_data (rv : ResizingVec T) :
    (rv.resize).2.data = rv.data.filter Option.isSome := by
  rw [resize_eq]
  simp [resizeGo_fst]

theorem resize_positions_new_idx (rv : ResizingVec T) :
    (rv.resize).1.map Position.new_idx
      = List.range (rv.data.countP Option.isSome) := by
  rw [resize_eq]
  simp only [resizeGo_new_idx, List.map_nil, List.length_nil, List.nil_append]
  rw [List.range_eq_range']

theorem wf_new : (new : ResizingVec T).Wf := by
  simp [Wf, new]

theorem wf_prefill (c : Nat) : (prefill c : ResizingVec T).Wf := by
  simp [Wf, prefill, countP_replicate_none]

theorem wf_fromVec (l : List T) : (fromVec l).Wf := by
  simp [Wf, fromVec, List.countP_map, Function.comp_def]

theorem wf_insert (rv : ResizingVec T) (idx : Nat) (t : T) (h : rv.Wf) :
    (rv.insert idx t).2.Wf := by
  rw [insert_eq]
  unfold Wf at *
  simp only
  have hlen := lt_growTo_length rv.data idx
  have hset := countP_set_isSome (growTo rv.data idx) idx (some t) hlen
  have hgrow : (growTo rv.data idx).countP Option.isSome
      = rv.data.countP Option.isSome := by
    rw [growTo_eq]
    simp [countP_replicate_none]
  rw [growTo_getD] at hset ⊢
  cases hprev : rv.data.getD idx none <;> rw [hprev] at hset <;>
    simp at hset ⊢ <;> omega

theorem wf_remove (rv : ResizingVec T) (idx : Nat) (h : rv.Wf) :
    (rv.remove idx).2.Wf := by
  by_cases hlt : idx < rv.data.length
  · rw [remove_eq_lt rv idx hlt]
    unfold Wf at *
    simp only
    have hset := countP_set_isSome rv.data idx none hlt
    cases hprev : rv.data.getD idx none <;> rw [hprev] at hset <;>
      simp at hset ⊢ <;> omega
  · rw [remove_eq_ge rv idx (by omega)]
    exact h

theorem wf_resize (rv : ResizingVec T) : (rv.resize).2.Wf := by
  rw [resize_eq]
  unfold Wf
  simp only
  rw [resizeGo_fst]
  simp [List.countP_eq_length_filter, List.filter_filter]

theorem wf_clear (rv : ResizingVec T) : rv.clear.Wf := by
  simp [Wf, clear]

theorem filled_le (rv : ResizingVec T) (h : rv.Wf) :
    rv.filled ≤ rv.reserved_space := by
  unfold Wf at h
  unfold filled reserved_space
  rw [h]
  exact List.countP_le_length _

theorem insert_fst (rv : ResizingVec T) (idx : Nat) (v : T) :
    (rv.insert idx v).1 = rv.get idx := by
  rw [insert_eq, get_eq_getD]
  exact growTo_getD rv.data idx idx

theorem insert_active (rv : ResizingVec T) (idx : Nat) (v : T) :
    (rv.insert idx v).2.active
      = if (rv.get idx).isNone then rv.active + 1 else rv.active := by
  rw [insert_eq, get_eq_getD]
  simp only
  rw [growTo_getD]

theorem get_insert_self (rv : ResizingVec T) (i : Nat) (v : T) :
    (rv.insert i v).2.get i = some v := by
  rw [insert_eq, get_eq_getD]
  simp only
  rw [List.getD_eq_get?, List.get?_set_eq_of_lt _ (lt_growTo_length rv.data i)]
  rfl

theorem get_insert_ne (rv : ResizingVec T) (i j : Nat) (v : T) (hne : j ≠ i) :
    (rv.insert i v).2.get j = rv.get j := by
  rw [insert_eq, get_eq_getD, get_eq_getD]
  simp only
  rw [List.getD_eq_get?, List.get?_set_ne _ _ (Ne.symm hne),
    ← List.getD_eq_get?, growTo_getD]

end ResizingVec

/-- C1: after `resize`, `reserved_space` equals `filled`; iterating the
compacted store yields exactly the previously occupied values in their
original ascending-index relative order; and the returned `Position` list
has length equal to the pre-compaction `filled`, with `new_idx` values
strictly ascending `0, 1, ..., filled - 1`. -/
theorem C1_resize_correct {T : Type} (rv : ResizingVec T) (h : rv.Wf) :
    (rv.resize).2.reserved_space = (rv.resize).2.filled
    ∧ (rv.resize).2.iter.map Prod.snd = rv.iter.map Prod.snd
    ∧ (rv.resize).1.length = rv.filled
    ∧ (rv.resize).1.map Position.new_idx = List.range rv.filled := by
  refine ⟨rfl, ?_, ?_, ?_⟩
  · rw [ResizingVec.iter_values, ResizingVec.iter_values, ResizingVec.resize_data,
      ResizingVec.filterMap_id_filter_isSome]
  · have h2 := congrArg List.length (ResizingVec.resize_positions_new_idx rv)
    simp only [List.length_map, List.length_range] at h2
    unfold ResizingVec.Wf at h
    unfold ResizingVec.filled
    omega
  · unfold ResizingVec.Wf at h
    unfold ResizingVec.filled
    rw [h]
    exact ResizingVec.resize_positions_new_idx rv

/-- Witness for C1 at the concrete store `sampleA`. -/
theorem C1_resize_correct_witness :
    (sampleA.resize).2.reserved_space = (sampleA.resize).2.filled
    ∧ (sampleA.resize).2.iter.map Prod.snd = sampleA.iter.map Prod.snd
    ∧ (sampleA.resize).1.length = sampleA.filled
    ∧ (sampleA.resize).1.map Position.new_idx = List.range sampleA.filled :=
  C1_resize_correct sampleA (by decide)

/-- C2: the occupancy invariant.  `active` equals the number of occupied
slots in every constructed store and is preserved by every mutating
operation (`get`, `get_mut` and `iter` do not change the state in the
embedding), and under it `filled ≤ reserved_space`. -/
theorem C2_wf_preserved {T : Type} (rv : ResizingVec T) (c i : Nat)
    (l : List T) (t : T) :
    (ResizingVec.new : ResizingVec T).Wf
    ∧ (ResizingVec.prefill c : ResizingVec T).Wf
    ∧ (ResizingVec.fromVec l).Wf
    ∧ (rv.Wf → (rv.insert i t).2.Wf)
    ∧ (rv.Wf → (rv.remove i).2.Wf)
    ∧ (rv.resize).2.Wf
    ∧ rv.clear.Wf
    ∧ (rv.Wf → rv.filled ≤ rv.reserved_space) :=
  ⟨ResizingVec.wf_new, ResizingVec.wf_prefill c, ResizingVec.wf_fromVec l,
   ResizingVec.wf_insert rv i t, ResizingVec.wf_remove rv i,
   ResizingVec.wf_resize rv, ResizingVec.wf_clear rv,
   ResizingVec.filled_le rv⟩

/-- Witness for C2 at the concrete store `sampleB`. -/
theorem C2_wf_preserved_witness :
    (sampleB.insert 5 9).2.Wf
    ∧ (sampleB.remove 0).2.Wf
    ∧ sampleB.filled ≤ sampleB.reserved_space := by
  have h1 := C2_wf_preserved sampleB 3 5 [1, 2] 9
  have h2 := C2_wf_preserved sampleB 3 0 [1, 2] 9
  exact ⟨h1.2.2.2.1 (by decide), h2.2.2.2.2.1 (by decide),
    h1.2.2.2.2.2.2.2 (by decide)⟩

/-- C3: when `idx ≥ reserved_space`, `insert` grows the backing storage to
exactly `idx + 1` slots; in particular inserting only at index `k` into an
empty store yields `reserved_space = k + 1` and `filled = 1`. -/
theorem C3_insert_grows {T : Type} (rv : ResizingVec T) (idx k : Nat)
    (v w : T) (h : rv.reserved_space ≤ idx) :
    (rv.insert idx v).2.reserved_space = idx + 1
    ∧ ((ResizingVec.new : ResizingVec T).insert k w).2.reserved_space = k + 1
    ∧ ((ResizingVec.new : ResizingVec T).insert k w).2.filled = 1 := by
  unfold ResizingVec.reserved_space at h
  refine ⟨?_, ?_, ?_⟩
  · rw [ResizingVec.insert_eq]
    unfold ResizingVec.reserved_space
    simp only
    rw [List.length_set, ResizingVec.growTo_length]
    omega
  · rw [ResizingVec.insert_eq]
    unfold ResizingVec.reserved_space
    simp only
    rw [List.length_set, ResizingVec.growTo_length]
    simp [ResizingVec.new]
  · rw [ResizingVec.insert_eq]
    unfold ResizingVec.filled
    simp only
    rw [ResizingVec.growTo_getD]
    simp [ResizingVec.new]

/-- Witness for C3: inserting at index 4 of `sampleB` (2 slots) and at
index 6 of the empty store. -/
theorem C3_insert_grows_witness :
    (sampleB.insert 4 7).2.reserved_space = 4 + 1
    ∧ ((ResizingVec.new : ResizingVec Nat).insert 6 8).2.reserved_space = 6 + 1
    ∧ ((ResizingVec.new : ResizingVec Nat).insert 6 8).2.filled = 1 :=
  ⟨(C3_insert_grows sampleB 4 6 7 8 (by decide)).1,
   (C3_insert_grows sampleB 4 6 7 8 (by decide)).2.1,
   (C3_insert_grows sampleB 4 6 7 8 (by decide)).2.2⟩

/-- C4: `insert idx v` sets slot `idx` to `v`, returns the previous
occupant of slot `idx` (nothing when it was empty or out of range), and
increments `filled` by exactly 1 iff the slot was empty or newly created
by growth. -/
theorem C4_insert_spec {T : Type} (rv : ResizingVec T) (idx : Nat) (v : T) :
    (rv.insert idx v).1 = rv.get idx
    ∧ (rv.insert idx v).2.get idx = some v
    ∧ (rv.insert idx v).2.filled
        = (if (rv.get idx).isNone then rv.filled + 1 else rv.filled) :=
  ⟨ResizingVec.insert_fst rv idx v, ResizingVec.get_insert_self rv idx v,
   ResizingVec.insert_active rv idx v⟩

/-- C5: inserting `v` at index `i` then calling `get i` returns `v`, and
`get j` for `j ≠ i` at which nothing was inserted returns nothing. -/
theorem C5_insert_get_round_trip {T : Type} (rv : ResizingVec T) (i j : Nat)
    (v : T) (hne : j ≠ i) (hj : rv.get j = none) :
    (rv.insert i v).2.get i = some v ∧ (rv.insert i v).2.get j = none := by
  refine ⟨ResizingVec.get_insert_self rv i v, ?_⟩
  rw [ResizingVec.get_insert_ne rv i j v hne, hj]

/-- Witness for C5 on the empty store with `i = 2`, `j = 5`. -/
theorem C5_insert_get_round_trip_witness :
    ((ResizingVec.new : ResizingVec Nat).insert 2 7).2.get 2 = some 7
    ∧ ((ResizingVec.new : ResizingVec Nat).insert 2 7).2.get 5 = none :=
  C5_insert_get_round_trip ResizingVec.new 2 5 7 (by decide) (by decide)

/-- C6: removing an empty or out-of-range slot returns nothing and leaves
the whole store unchanged; removing an occupied slot returns its value,
decrements `filled` by exactly 1, and keeps `reserved_space`. -/
theorem C6_remove_spec {T : Type} (rv : ResizingVec T) (idx : Nat) (v : T) :
    (rv.get idx = none → (rv.remove idx).1 = none ∧ (rv.remove idx).2 = rv)
    ∧ (rv.Wf → rv.get idx = some v →
        (rv.remove idx).1 = some v
        ∧ (rv.remove idx).2.filled + 1 = rv.filled
        ∧ (rv.remove idx).2.reserved_space = rv.reserved_space) := by
  constructor
  · intro hnone
    rw [ResizingVec.get_eq_getD] at hnone
    by_cases hlt : idx < rv.data.length
    · rw [ResizingVec.remove_eq_lt rv idx hlt, hnone,
        ResizingVec.set_none_of_getD_none rv.data idx hnone]
      exact ⟨rfl, rfl⟩
    · rw [ResizingVec.remove_eq_ge rv idx (by omega)]
      exact ⟨rfl, rfl⟩
  · intro hwf hsome
    rw [ResizingVec.get_eq_getD] at hsome
    have hget : rv.data.get? idx = some (some v) := by
      rw [List.getD_eq_get?] at hsome
      cases hq : rv.data.get? idx with
      | none => rw [hq] at hsome; simp at hsome
      | some o => rw [hq] at hsome; simp at hsome; rw [hsome]
    have hlt : idx < rv.data.length := by
      by_contra hge
      rw [List.get?_len_le (by omega)] at hget
      simp at hget
    rw [ResizingVec.remove_eq_lt rv idx hlt, hsome]
    refine ⟨rfl, ?_, ?_⟩
    · have hpos : 0 < rv.data.countP Option.isSome := by
        rw [List.countP_pos_iff]
        exact ⟨some v, List.get?_mem hget, rfl⟩
      unfold ResizingVec.Wf at hwf
      unfold ResizingVec.filled
      simp only
      have hif : (if (some v).isSome = true then rv.active - 1 else rv.active)
          = rv.active - 1 := rfl
      rw [hif]
      omega
    · unfold ResizingVec.reserved_space
      simp

/-- Witness for C6 at the concrete store `sampleB`. -/
theorem C6_remove_spec_witness :
    ((sampleB.remove 1).1 = none ∧ (sampleB.remove 1).2 = sampleB)
    ∧ ((sampleB.remove 0).1 = some 3
       ∧ (sampleB.remove 0).2.filled + 1 = sampleB.filled
       ∧ (sampleB.remove 0).2.reserved_space = sampleB.reserved_space) :=
  ⟨(C6_remove_spec sampleB 1 3).1 (by decide),
   (C6_remove_spec sampleB 0 3).2 (by decide) (by decide)⟩

/-- C7: `get`, `get_mut` and `remove` are total and report out-of-range
indices and in-range unoccupied slots uniformly as an empty result. -/
theorem C7_absent_uniform {T : Type} (rv : ResizingVec T) (idx : Nat) :
    (rv.reserved_space ≤ idx →
        rv.get idx = none ∧ rv.get_mut idx = none ∧ (rv.remove idx).1 = none)
    ∧ (rv.data.get? idx = some none →
        rv.get idx = none ∧ rv.get_mut idx = none ∧ (rv.remove idx).1 = none) := by
  constructor
  · intro hge
    unfold ResizingVec.reserved_space at hge
    have hnone : rv.get idx = none := by
      unfold ResizingVec.get
      rw [List.get?_len_le hge]
    refine ⟨hnone, hnone, ?_⟩
    rw [ResizingVec.remove_eq_ge rv idx hge]
  · intro hslot
    have hnone : rv.get idx = none := by
      unfold ResizingVec.get
      rw [hslot]
    obtain ⟨hlt, -⟩ := List.get?_eq_some.mp hslot
    refine ⟨hnone, hnone, ?_⟩
    rw [ResizingVec.remove_eq_lt rv idx hlt]
    simp only
    rw [List.getD_eq_get?, hslot]
    rfl

/-- Witness for C7 at the concrete store `sampleB` (index 5 out of range,
index 1 in range but unoccupied). -/
theorem C7_absent_uniform_witness :
    (sampleB.get 5 = none ∧ sampleB.get_mut 5 = none
      ∧ (sampleB.remove 5).1 = none)
    ∧ (sampleB.get 1 = none ∧ sampleB.get_mut 1 = none
      ∧ (sampleB.remove 1).1 = none) :=
  ⟨(C7_absent_uniform sampleB 5).1 (by decide),
   (C7_absent_uniform sampleB 1).2 (by decide)⟩

/-- C8: `iter` yields exactly the pairs `(idx, value)` of occupied slots
(membership characterisation) with indices strictly ascending; in the pure
embedding the sequence is finite and the same on each call by
construction. -/
theorem C8_iter_spec {T : Type} (rv : ResizingVec T) (i : Nat) (v : T) :
    ((i, v) ∈ rv.iter ↔ rv.data.get? i = some (some v))
    ∧ (rv.iter.map Prod.fst).Pairwise (· < ·) := by
  constructor
  · unfold ResizingVec.iter
    rw [List.mem_filterMap]
    constructor
    · rintro ⟨⟨j, o⟩, hmem, hf⟩
      cases o with
      | none => simp at hf
      | some w =>
        have hf2 : ((j, w) : Nat × T) = (i, v) := Option.some.inj hf
        injection hf2 with hj hw
        subst hj
        subst hw
        exact List.mem_enum_iff_get?.mp hmem
    · intro hget
      exact ⟨(i, some v), List.mem_enum_iff_get?.mpr hget, rfl⟩
  · have hs := ResizingVec.filterMap_pairs_fst_sublist (T := T) rv.data.enum
    rw [List.enum_map_fst] at hs
    exact List.Pairwise.sublist hs (List.pairwise_lt_range _)

/-- C9: the bracket indexing operators index the backing vector directly:
out of range the access is a fault (modelled by the outer `none` of
`indexOp`), in range it returns the raw optional slot. -/
theorem C9_index_semantics {T : Type} (rv : ResizingVec T) (idx : Nat) :
    (rv.reserved_space ≤ idx → rv.indexOp idx = none)
    ∧ (idx < rv.reserved_space → rv.indexOp idx = some (rv.data.getD idx none)) := by
  constructor
  · intro hge
    unfold ResizingVec.reserved_space at hge
    exact List.get?_len_le hge
  · intro hlt
    unfold ResizingVec.reserved_space at hlt
    unfold ResizingVec.indexOp
    rw [List.getD_eq_get?]
    cases hq : rv.data.get? idx with
    | none =>
      rw [List.get?_eq_none] at hq
      omega
    | some o => rfl

/-- Witness for C9 at the concrete store `sampleB`. -/
theorem C9_index_semantics_witness :
    sampleB.indexOp 5 = none
    ∧ sampleB.indexOp 1 = some (sampleB.data.getD 1 none) :=
  ⟨(C9_index_semantics sampleB 5).1 (by decide),
   (C9_index_semantics sampleB 1).2 (by decide)⟩

/-- C10: compaction never moves an element to a higher index: every
`Position` returned by `resize` has `new_idx ≤ prev_idx`, with equality
exactly when `changed` is false. -/
theorem C10_resize_monotone {T : Type} (rv : ResizingVec T) (p : Position)
    (hp : p ∈ (rv.resize).1) :
    p.new_idx ≤ p.prev_idx
    ∧ (p.changed = false ↔ p.new_idx = p.prev_idx) := by
  constructor
  · have h := ResizingVec.resizeGo_new_idx_le rv.data 0 [] []
      (by simp) (by simp)
    exact h p hp
  · unfold Position.changed
    rw [bne_eq_false_iff_eq]
    exact eq_comm

/-- Witness for C10: the position record `(1, 0)` produced by compacting
`sampleA`. -/
theorem C10_resize_monotone_witness :
    (⟨1, 0⟩ : Position).new_idx ≤ (⟨1, 0⟩ : Position).prev_idx
    ∧ ((⟨1, 0⟩ : Position).changed = false
        ↔ (⟨1, 0⟩ : Position).new_idx = (⟨1, 0⟩ : Position).prev_idx) :=
  C10_resize_monotone sampleA ⟨1, 0⟩ (by decide)
